import Mathlib

/-!
Shallow embedding of `src/fastslotmap.rs` (`FastSlotMap<T>`), a generational
slot map with three parallel vectors (`values`, `generations`, `next_free`),
a free-list head and a live-element counter.

Modelling conventions:
* `u32` values are `Nat` with explicit `% 2^32` wherever the Rust code wraps
  (`wrapping_add`, `fetch_add`/`fetch_sub` on `AtomicU32`, `as u32` casts).
* The `u32::MAX` sentinel is `u32Max`.
* The code is only ever called with exclusive access (`&mut self` /`&self`),
  so every atomic compare-exchange succeeds on its first attempt and each
  `loop` runs exactly once; the embedding is the straight-line residue.
* A Rust `panic` (out-of-bounds `Vec` indexing with `[...]`) is modelled by
  returning `none` at the outer `Option` layer; `Vec::get` (checked access)
  is modelled by `List.getElem?` and never panics.
-/

def u32Mod : Nat := 4294967296

def u32Max : Nat := 4294967295

/-- `Key { index: u32, generation: u32 }` from the source. -/
structure Key where
  index : Nat
  generation : Nat
deriving DecidableEq, Repr

/-- `FastSlotMap<T>` from the source: parallel vectors plus two counters. -/
structure FastSlotMap (T : Type) where
  values : List T
  generations : List Nat
  next_free : List Nat
  free_head : Nat
  len : Nat
deriving DecidableEq, Repr

namespace FastSlotMap

variable {T : Type}

/-- `FastSlotMap::new`. -/
def new : FastSlotMap T :=
  { values := [], generations := [], next_free := [], free_head := u32Max, len := 0 }

/-- `FastSlotMap::insert`.  With exclusive access the CAS on `free_head`
succeeds immediately, so the `loop` body runs once: either the head of the
free list is popped, or a fresh slot is appended.  The raw indexing
`self.next_free[free_index]`, `self.generations[index]`,
`self.values[index] = value` panics when out of bounds (`none` here);
`self.values.len() as u32` truncates modulo `2^32`. -/
def insert (m : FastSlotMap T) (v : T) : Option (Key × FastSlotMap T) :=
  if m.free_head = u32Max then
    some (⟨m.values.length % u32Mod, 0⟩,
      { values := m.values ++ [v],
        generations := m.generations ++ [0],
        next_free := m.next_free ++ [u32Max],
        free_head := m.free_head,
        len := (m.len + 1) % u32Mod })
  else
    match m.next_free[m.free_head]?, m.generations[m.free_head]? with
    | some nf, some g =>
      if m.free_head < m.values.length then
        some (⟨m.free_head, g⟩,
          { values := m.values.set m.free_head v,
            generations := m.generations,
            next_free := m.next_free,
            free_head := nf,
            len := (m.len + 1) % u32Mod })
      else none
    | _, _ => none

/-- `FastSlotMap::get`: checked access to `values` (absence when the index is
out of range), then an unchecked read of `generations[key.index]` inside the
`filter` closure (a panic — `none` at the outer layer — when `generations` is
shorter than `values`, which never happens in reachable states). -/
def get (m : FastSlotMap T) (k : Key) : Option (Option T) :=
  match m.values[k.index]? with
  | none => some none
  | some v =>
    match m.generations[k.index]? with
    | none => none
    | some g => some (if g = k.generation then some v else none)

/-- `FastSlotMap::get_mut`: the same lookup as `get` (the value reached by the
returned mutable reference). -/
def get_mut (m : FastSlotMap T) (k : Key) : Option (Option T) :=
  match m.values[k.index]? with
  | none => some none
  | some v =>
    match m.generations[k.index]? with
    | none => none
    | some g => some (if g = k.generation then some v else none)

/-- `FastSlotMap::remove`.  The generation test reads
`self.generations[key.index]` with *unchecked* indexing, so an out-of-range
index panics (`none`).  On a generation match the slot's generation is bumped
with `wrapping_add(1)`, `len` is decremented with wraparound, the value is
copied out, and the slot is pushed at the head of the free list (the CAS
succeeds immediately under exclusive access). -/
def remove (m : FastSlotMap T) (k : Key) : Option (Option T × FastSlotMap T) :=
  match m.generations[k.index]? with
  | none => none
  | some g =>
    if g = k.generation then
      match m.values[k.index]? with
      | none => none
      | some v =>
        if k.index < m.next_free.length then
          some (some v,
            { values := m.values,
              generations := m.generations.set k.index ((g + 1) % u32Mod),
              next_free := m.next_free.set k.index m.free_head,
              free_head := k.index,
              len := (m.len + u32Mod - 1) % u32Mod })
        else none
    else some (none, m)

/-- `FastSlotMap::contains`: `self.get(key).is_some()`. -/
def contains (m : FastSlotMap T) (k : Key) : Option Bool :=
  (m.get k).map Option.isSome

/-- `FastSlotMap::is_empty`: `self.len() == 0` (where `len()` reads the
counter). -/
def is_empty (m : FastSlotMap T) : Bool :=
  m.len == 0

end FastSlotMap

/-- Fuel-bounded traversal of the free list: follow `next_free` links from
`h` until the `u32::MAX` sentinel, a dangling link, or fuel exhaustion. -/
def freeListAux (nf : List Nat) : Nat → Nat → List Nat
  | 0, _ => []
  | fuel + 1, h =>
    if h = u32Max then []
    else
      match nf[h]? with
      | none => []
      | some nxt => h :: freeListAux nf fuel nxt

/-- The indices currently on the free list (the fuel `next_free.length`
suffices for every duplicate-free chain). -/
def FastSlotMap.freeList (m : FastSlotMap T) : List Nat :=
  freeListAux m.next_free m.next_free.length m.free_head

/-- Number of slots not currently on the free list. -/
def FastSlotMap.liveCount (m : FastSlotMap T) : Nat :=
  m.values.length - m.freeList.length

/-- `FreeChain nf h fl`: `fl` is exactly the (finite, terminating) chain of
free-list links starting at head `h` through the array `nf`, ending at the
`u32::MAX` sentinel. -/
inductive FreeChain (nf : List Nat) : Nat → List Nat → Prop where
  | nil : FreeChain nf u32Max []
  | cons {i : Nat} {rest : List Nat} (hne : i ≠ u32Max) (hlt : i < nf.length)
      (htail : FreeChain nf (nf.getD i 0) rest) : FreeChain nf i (i :: rest)

/-- A free-list link is either the sentinel or an index into the arrays. -/
def ValidLink (n x : Nat) : Prop := x = u32Max ∨ x < n

instance (n x : Nat) : Decidable (ValidLink n x) := by
  unfold ValidLink; infer_instance

/-- Structural well-formedness: the three parallel vectors have equal length,
and the free-list head and every stored link are either the sentinel or in
bounds. -/
def WF (m : FastSlotMap T) : Prop :=
  m.generations.length = m.values.length ∧
  m.next_free.length = m.values.length ∧
  ValidLink m.next_free.length m.free_head ∧
  ∀ i < m.next_free.length, ValidLink m.next_free.length (m.next_free.getD i 0)

instance (m : FastSlotMap T) : Decidable (WF m) := by
  unfold WF; infer_instance

/-- The public operations that touch a `FastSlotMap`.  `readKey` stands for
the `&self` observers `get`/`contains`; `writeThrough` is `get_mut` followed
by a store through the returned reference. -/
inductive Op (T : Type) where
  | insert (v : T)
  | remove (k : Key)
  | readKey (k : Key)
  | writeThrough (k : Key) (v : T)

/-- One public operation as a state transformer (`none` = panic). -/
def FastSlotMap.apply (m : FastSlotMap T) : Op T → Option (FastSlotMap T)
  | .insert v => (m.insert v).map Prod.snd
  | .remove k => (m.remove k).map Prod.snd
  | .readKey k => (m.get k).map fun _ => m
  | .writeThrough k v =>
    match m.get_mut k with
    | none => none
    | some none => some m
    | some (some _) => some { m with values := m.values.set k.index v }

/-- Run a list of public operations in order (`none` = some step panicked). -/
def FastSlotMap.applyOps (m : FastSlotMap T) : List (Op T) → Option (FastSlotMap T)
  | [] => some m
  | op :: rest =>
    match m.apply op with
    | none => none
    | some m' => m'.applyOps rest

/-- States reachable from `new` by non-panicking public operations. -/
inductive Reachable {T : Type} : FastSlotMap T → Prop where
  | base : Reachable FastSlotMap.new
  | step {m m' : FastSlotMap T} {op : Op T} : Reachable m →
      FastSlotMap.apply m op = some m' → Reachable m'

/-- An operation is "safe" when it does not present a forged key that matches
the already-bumped generation of a slot sitting on the free list (and does not
target the slot whose index coincides with the `u32::MAX` sentinel). -/
def SafeOp (m : FastSlotMap T) : Op T → Prop
  | .remove k => k.index ≠ u32Max ∧
      ¬(k.index ∈ m.freeList ∧ m.generations.getD k.index 0 = k.generation)
  | _ => True

instance (m : FastSlotMap T) (op : Op T) : Decidable (SafeOp m op) := by
  cases op <;> (unfold SafeOp; infer_instance)

/-- States reachable from `new` by non-panicking safe public operations. -/
inductive ReachableSafe {T : Type} : FastSlotMap T → Prop where
  | base : ReachableSafe FastSlotMap.new
  | step {m m' : FastSlotMap T} {op : Op T} : ReachableSafe m → SafeOp m op →
      FastSlotMap.apply m op = some m' → ReachableSafe m'

/-- The free-list bookkeeping invariant: structurally well-formed, and the
links from `free_head` form a finite duplicate-free chain whose length is
consistent with the wrapping `len` counter. -/
def SafeInv (m : FastSlotMap T) : Prop :=
  WF m ∧ ∃ fl, FreeChain m.next_free m.free_head fl ∧ fl.Nodup ∧
    (m.len + fl.length) % u32Mod = m.values.length % u32Mod ∧ m.len < u32Mod

-- ### Arithmetic and list helper lemmas

theorem succ_mod_ne (g : Nat) : (g + 1) % u32Mod ≠ g := by
  simp only [u32Mod]
  omega

theorem sub_one_mod (x : Nat) (h1 : 0 < x) (h2 : x < u32Mod) :
    (x + u32Mod - 1) % u32Mod = x - 1 := by
  simp only [u32Mod] at *
  omega

theorem nodup_length_le {n : Nat} {l : List Nat} (h1 : l.Nodup)
    (h2 : ∀ x ∈ l, x < n) : l.length ≤ n := by
  have hsub : l ⊆ List.range n := fun x hx => List.mem_range.mpr (h2 x hx)
  simpa using (h1.subperm hsub).length_le

theorem getElemq_getD {l : List Nat} {j : Nat} (h : j < l.length) :
    l[j]? = some (l.getD j 0) := by
  simp [List.getD_eq_getElem?_getD, List.getElem?_eq_getElem h]

theorem getD_set_self {l : List Nat} {j x : Nat} (h : j < l.length) :
    (l.set j x).getD j 0 = x := by
  simp [List.getD_eq_getElem?_getD, List.getElem?_set_self, h]

theorem getD_set_ne {l : List Nat} {i j x : Nat} (h : i ≠ j) :
    (l.set i x).getD j 0 = l.getD j 0 := by
  simp [List.getD_eq_getElem?_getD, List.getElem?_set_ne h]

theorem getD_append_left {l l' : List Nat} {j : Nat} (h : j < l.length) :
    (l ++ l').getD j 0 = l.getD j 0 := by
  simp [List.getD_eq_getElem?_getD, List.getElem?_append_left h]

-- ### Free-chain lemmas

theorem FreeChain.mem_lt {nf : List Nat} {h0 : Nat} {fl : List Nat}
    (hc : FreeChain nf h0 fl) : ∀ x ∈ fl, x < nf.length := by
  induction hc with
  | nil => intro x hx; cases hx
  | cons hne hlt htail ih =>
    intro x hx
    rcases List.mem_cons.mp hx with rfl | hx
    · exact hlt
    · exact ih x hx

theorem FreeChain.set_outside {nf : List Nat} {h0 : Nat} {fl : List Nat}
    (hc : FreeChain nf h0 fl) {j x : Nat} (hj : j ∉ fl) :
    FreeChain (nf.set j x) h0 fl := by
  induction hc with
  | nil => exact FreeChain.nil
  | cons hne hlt htail ih =>
    rename_i i rest
    have hij : j ≠ i := fun h => hj (h ▸ List.mem_cons_self _ _)
    refine FreeChain.cons hne (by simpa using hlt) ?_
    rw [getD_set_ne hij]
    exact ih fun hmem => hj (List.mem_cons_of_mem _ hmem)

theorem FreeChain.append_right {nf : List Nat} {h0 : Nat} {fl : List Nat}
    (hc : FreeChain nf h0 fl) (x : Nat) : FreeChain (nf ++ [x]) h0 fl := by
  induction hc with
  | nil => exact FreeChain.nil
  | cons hne hlt htail ih =>
    rename_i i rest
    refine FreeChain.cons hne (by simp; omega) ?_
    rw [getD_append_left hlt]
    exact ih

theorem FreeChain.cons_of_ne {nf : List Nat} {h0 : Nat} {fl : List Nat}
    (hc : FreeChain nf h0 fl) (h : h0 ≠ u32Max) :
    ∃ rest, fl = h0 :: rest ∧ h0 < nf.length ∧
      FreeChain nf (nf.getD h0 0) rest := by
  cases hc with
  | nil => exact absurd rfl h
  | cons hne hlt htail => exact ⟨_, rfl, hlt, htail⟩

theorem freeListAux_eq_chain {nf : List Nat} {h0 : Nat} {fl : List Nat}
    (hc : FreeChain nf h0 fl) :
    ∀ fuel, fl.length ≤ fuel → freeListAux nf fuel h0 = fl := by
  induction hc with
  | nil =>
    intro fuel _
    cases fuel with
    | zero => rfl
    | succ f => simp [freeListAux]
  | cons hne hlt htail ih =>
    rename_i i rest
    intro fuel hf
    cases fuel with
    | zero => simp at hf
    | succ f =>
      unfold freeListAux
      rw [if_neg hne, getElemq_getD hlt]
      show i :: freeListAux nf f (nf.getD i 0) = i :: rest
      rw [ih f (by simpa using hf)]

theorem freeListAux_mem_lt {nf : List Nat}
    (hl : ∀ i < nf.length, ValidLink nf.length (nf.getD i 0)) :
    ∀ (fuel h0 : Nat), ValidLink nf.length h0 →
      ∀ j ∈ freeListAux nf fuel h0, j < nf.length := by
  intro fuel
  induction fuel with
  | zero => intro h0 _ j hj; simp [freeListAux] at hj
  | succ f ih =>
    intro h0 hh j hj
    unfold freeListAux at hj
    by_cases hmax : h0 = u32Max
    · rw [if_pos hmax] at hj; cases hj
    · rw [if_neg hmax] at hj
      have hlt : h0 < nf.length := by
        rcases hh with h | h
        · exact absurd h hmax
        · exact h
      rw [getElemq_getD hlt] at hj
      rcases List.mem_cons.mp hj with rfl | hj
      · exact hlt
      · exact ih (nf.getD h0 0) (hl h0 hlt) j hj

-- ### Characterizations of the individual operations

theorem insert_grow {T : Type} (m : FastSlotMap T) (v : T)
    (h : m.free_head = u32Max) :
    m.insert v = some (⟨m.values.length % u32Mod, 0⟩,
      { values := m.values ++ [v], generations := m.generations ++ [0],
        next_free := m.next_free ++ [u32Max], free_head := m.free_head,
        len := (m.len + 1) % u32Mod }) := by
  simp [FastSlotMap.insert, h]

theorem insert_pop {T : Type} (m : FastSlotMap T) (v : T)
    (h : m.free_head ≠ u32Max) (hn : m.free_head < m.next_free.length)
    (hg : m.free_head < m.generations.length)
    (hv : m.free_head < m.values.length) :
    m.insert v = some (⟨m.free_head, m.generations.getD m.free_head 0⟩,
      { values := m.values.set m.free_head v, generations := m.generations,
        next_free := m.next_free, free_head := m.next_free.getD m.free_head 0,
        len := (m.len + 1) % u32Mod }) := by
  unfold FastSlotMap.insert
  rw [if_neg h, getElemq_getD hn, getElemq_getD hg]
  simp [hv]

theorem remove_hit {T : Type} (m : FastSlotMap T) (k : Key) (v : T)
    (hg : m.generations[k.index]? = some k.generation)
    (hv : m.values[k.index]? = some v) (hn : k.index < m.next_free.length) :
    m.remove k = some (some v,
      { values := m.values,
        generations := m.generations.set k.index ((k.generation + 1) % u32Mod),
        next_free := m.next_free.set k.index m.free_head,
        free_head := k.index,
        len := (m.len + u32Mod - 1) % u32Mod }) := by
  unfold FastSlotMap.remove
  rw [hg]
  simp [hv, hn]

theorem remove_miss {T : Type} (m : FastSlotMap T) (k : Key) (g : Nat)
    (hg : m.generations[k.index]? = some g) (hne : g ≠ k.generation) :
    m.remove k = some (none, m) := by
  unfold FastSlotMap.remove
  rw [hg]
  simp [hne]

theorem remove_oob {T : Type} (m : FastSlotMap T) (k : Key)
    (h : m.generations.length ≤ k.index) : m.remove k = none := by
  unfold FastSlotMap.remove
  rw [List.getElem?_eq_none h]

theorem remove_panic_values {T : Type} (m : FastSlotMap T) (k : Key)
    (hg : m.generations[k.index]? = some k.generation)
    (hv : m.values[k.index]? = none) : m.remove k = none := by
  unfold FastSlotMap.remove
  rw [hg]
  simp [hv]

theorem remove_panic_links {T : Type} (m : FastSlotMap T) (k : Key) (v : T)
    (hg : m.generations[k.index]? = some k.generation)
    (hv : m.values[k.index]? = some v)
    (hn : ¬ k.index < m.next_free.length) : m.remove k = none := by
  unfold FastSlotMap.remove
  rw [hg]
  simp [hv, hn]

theorem get_hit {T : Type} {m : FastSlotMap T} {k : Key} {v : T}
    (hv : m.values[k.index]? = some v)
    (hg : m.generations[k.index]? = some k.generation) :
    m.get k = some (some v) := by
  unfold FastSlotMap.get
  rw [hv, hg]
  simp

theorem get_miss_gen {T : Type} {m : FastSlotMap T} {k : Key} {v : T} {g : Nat}
    (hv : m.values[k.index]? = some v) (hg : m.generations[k.index]? = some g)
    (hne : g ≠ k.generation) : m.get k = some none := by
  unfold FastSlotMap.get
  rw [hv, hg]
  simp [hne]

theorem get_oob {T : Type} {m : FastSlotMap T} {k : Key}
    (h : m.values.length ≤ k.index) : m.get k = some none := by
  unfold FastSlotMap.get
  rw [List.getElem?_eq_none h]

theorem get_mut_eq_get {T : Type} (m : FastSlotMap T) (k : Key) :
    m.get_mut k = m.get k := rfl

theorem contains_eq {T : Type} (m : FastSlotMap T) (k : Key) :
    m.contains k = (m.get k).map Option.isSome := rfl

-- ### Preservation of structural well-formedness

theorem validLink_mono {n nn x : Nat} (h : ValidLink n x) (hle : n ≤ nn) :
    ValidLink nn x := by
  rcases h with h | h
  · exact Or.inl h
  · exact Or.inr (lt_of_lt_of_le h hle)

theorem wf_new {T : Type} : WF (FastSlotMap.new : FastSlotMap T) := by
  refine ⟨rfl, rfl, Or.inl rfl, ?_⟩
  intro i hi
  simp [FastSlotMap.new] at hi

theorem wf_apply {T : Type} {m m' : FastSlotMap T} {op : Op T}
    (hwf : WF m) (h : m.apply op = some m') : WF m' := by
  obtain ⟨hg, hn, hh, hl⟩ := hwf
  cases op with
  | insert v =>
    simp only [FastSlotMap.apply] at h
    by_cases hfh : m.free_head = u32Max
    · rw [insert_grow m v hfh] at h
      simp at h
      subst h
      refine ⟨by simp [hg], by simp [hn], ?_, ?_⟩
      · exact Or.inl hfh
      · intro i hi
        simp at hi
        rcases Nat.lt_or_ge i m.next_free.length with hlt | hge
        · rw [getD_append_left hlt]
          exact validLink_mono (hl i hlt) (by simp)
        · have hi2 : i = m.next_free.length := by omega
          subst hi2
          have : (m.next_free ++ [u32Max]).getD m.next_free.length 0 = u32Max := by
            simp [List.getD_eq_getElem?_getD]
          rw [this]
          exact Or.inl rfl
    · have hfn : m.free_head < m.next_free.length := by
        rcases hh with hcc | hcc
        · exact absurd hcc hfh
        · exact hcc
      have hfg : m.free_head < m.generations.length := by omega
      have hfv : m.free_head < m.values.length := by omega
      rw [insert_pop m v hfh hfn hfg hfv] at h
      simp at h
      subst h
      refine ⟨by simp [hg], by simp [hn], ?_, ?_⟩
      · simpa using hl m.free_head hfn
      · intro i hi
        simpa using hl i (by simpa using hi)
  | remove k =>
    simp only [FastSlotMap.apply] at h
    cases hgk : m.generations[k.index]? with
    | none =>
      rw [remove_oob m k (List.getElem?_eq_none_iff.mp hgk)] at h
      simp at h
    | some g =>
      by_cases hgen : g = k.generation
      · subst hgen
        cases hvk : m.values[k.index]? with
        | none =>
          rw [remove_panic_values m k hgk hvk] at h
          simp at h
        | some v =>
          by_cases hnk : k.index < m.next_free.length
          · rw [remove_hit m k v hgk hvk hnk] at h
            simp at h
            subst h
            refine ⟨by simp [hg], by simp [hn], ?_, ?_⟩
            · exact Or.inr (by simpa using hnk)
            · intro i hi
              have hi2 : i < m.next_free.length := by simpa using hi
              show ValidLink (m.next_free.set k.index m.free_head).length
                  ((m.next_free.set k.index m.free_head).getD i 0)
              rw [List.length_set]
              by_cases hik : i = k.index
              · subst hik
                rw [getD_set_self hnk]
                exact hh
              · rw [getD_set_ne (Ne.symm hik)]
                exact hl i hi2
          · rw [remove_panic_links m k v hgk hvk hnk] at h
            simp at h
      · rw [remove_miss m k g hgk hgen] at h
        simp at h
        subst h
        exact ⟨hg, hn, hh, hl⟩
  | readKey k =>
    simp only [FastSlotMap.apply] at h
    cases hq : m.get k with
    | none => rw [hq] at h; simp at h
    | some r =>
      rw [hq] at h
      simp at h
      subst h
      exact ⟨hg, hn, hh, hl⟩
  | writeThrough k v =>
    simp only [FastSlotMap.apply] at h
    cases hq : m.get_mut k with
    | none => rw [hq] at h; simp at h
    | some r =>
      cases r with
      | none =>
        rw [hq] at h
        simp at h
        subst h
        exact ⟨hg, hn, hh, hl⟩
      | some v0 =>
        rw [hq] at h
        simp at h
        subst h
        exact ⟨by simp [hg], by simp [hn], hh, hl⟩

theorem reachable_wf {T : Type} {m : FastSlotMap T} (h : Reachable m) :
    WF m := by
  induction h with
  | base => exact wf_new
  | step hr happ ih => exact wf_apply ih happ

-- ### Preservation of the free-list invariant along safe traces

theorem safeInv_new {T : Type} : SafeInv (FastSlotMap.new : FastSlotMap T) :=
  ⟨wf_new, [], FreeChain.nil, List.nodup_nil, rfl,
    by show 0 < u32Mod; simp only [u32Mod]; omega⟩

theorem safeInv_apply {T : Type} {m m' : FastSlotMap T} {op : Op T}
    (hs : SafeInv m) (hso : SafeOp m op) (h : m.apply op = some m') :
    SafeInv m' := by
  obtain ⟨hwf, fl, hc, hnd, hlen, hltM⟩ := hs
  have hwf' := wf_apply hwf h
  obtain ⟨hg, hn, hh, hl⟩ := hwf
  refine ⟨hwf', ?_⟩
  have hmem := hc.mem_lt
  have hflen : fl.length ≤ m.next_free.length := nodup_length_le hnd hmem
  cases op with
  | insert v =>
    simp only [FastSlotMap.apply] at h
    by_cases hfh : m.free_head = u32Max
    · rw [insert_grow m v hfh] at h
      simp at h
      subst h
      refine ⟨fl, ?_, hnd, ?_, ?_⟩
      · exact hc.append_right u32Max
      · show ((m.len + 1) % u32Mod + fl.length) % u32Mod =
          (m.values ++ [v]).length % u32Mod
        simp only [List.length_append, List.length_cons, List.length_nil]
        simp only [u32Mod] at *
        omega
      · show (m.len + 1) % u32Mod < u32Mod
        simp only [u32Mod] at *
        omega
    · obtain ⟨rest, hfl, hlt, htail⟩ := hc.cons_of_ne hfh
      subst hfl
      have hfg : m.free_head < m.generations.length := by omega
      have hfv : m.free_head < m.values.length := by omega
      rw [insert_pop m v hfh hlt hfg hfv] at h
      simp at h
      subst h
      refine ⟨rest, ?_, hnd.of_cons, ?_, ?_⟩
      · show FreeChain m.next_free (m.next_free[m.free_head]?.getD 0) rest
        rw [← List.getD_eq_getElem?_getD]
        exact htail
      · show ((m.len + 1) % u32Mod + rest.length) % u32Mod =
          (m.values.set m.free_head v).length % u32Mod
        rw [List.length_set]
        simp only [List.length_cons] at hlen
        simp only [u32Mod] at *
        omega
      · show (m.len + 1) % u32Mod < u32Mod
        simp only [u32Mod] at *
        omega
  | remove k =>
    simp only [FastSlotMap.apply] at h
    cases hgk : m.generations[k.index]? with
    | none =>
      rw [remove_oob m k (List.getElem?_eq_none_iff.mp hgk)] at h
      simp at h
    | some g =>
      by_cases hgen : g = k.generation
      · subst hgen
        cases hvk : m.values[k.index]? with
        | none =>
          rw [remove_panic_values m k hgk hvk] at h
          simp at h
        | some v =>
          by_cases hnk : k.index < m.next_free.length
          · rw [remove_hit m k v hgk hvk hnk] at h
            simp at h
            subst h
            obtain ⟨hkmax, hkfree⟩ := hso
            have hgetD : m.generations.getD k.index 0 = k.generation := by
              simp [List.getD_eq_getElem?_getD, hgk]
            have hfleq : m.freeList = fl := by
              unfold FastSlotMap.freeList
              exact freeListAux_eq_chain hc _ hflen
            have hknotin : k.index ∉ fl := by
              intro hmemk
              exact hkfree ⟨hfleq ▸ hmemk, hgetD⟩
            have hcons : (k.index :: fl).Nodup := List.nodup_cons.mpr ⟨hknotin, hnd⟩
            refine ⟨k.index :: fl, ?_, hcons, ?_, ?_⟩
            · show FreeChain (m.next_free.set k.index m.free_head) k.index
                (k.index :: fl)
              refine FreeChain.cons hkmax (by simpa using hnk) ?_
              rw [getD_set_self hnk]
              exact hc.set_outside hknotin
            · show ((m.len + u32Mod - 1) % u32Mod + (k.index :: fl).length) %
                u32Mod = m.values.length % u32Mod
              simp only [List.length_cons]
              simp only [u32Mod] at *
              omega
            · show (m.len + u32Mod - 1) % u32Mod < u32Mod
              simp only [u32Mod] at *
              omega
          · rw [remove_panic_links m k v hgk hvk hnk] at h
            simp at h
      · rw [remove_miss m k g hgk hgen] at h
        simp at h
        subst h
        exact ⟨fl, hc, hnd, hlen, hltM⟩
  | readKey k =>
    simp only [FastSlotMap.apply] at h
    cases hq : m.get k with
    | none => rw [hq] at h; simp at h
    | some r =>
      rw [hq] at h
      simp at h
      subst h
      exact ⟨fl, hc, hnd, hlen, hltM⟩
  | writeThrough k v =>
    simp only [FastSlotMap.apply] at h
    cases hq : m.get_mut k with
    | none => rw [hq] at h; simp at h
    | some r =>
      cases r with
      | none =>
        rw [hq] at h
        simp at h
        subst h
        exact ⟨fl, hc, hnd, hlen, hltM⟩
      | some v0 =>
        rw [hq] at h
        simp at h
        subst h
        refine ⟨fl, hc, hnd, ?_, hltM⟩
        show (m.len + fl.length) % u32Mod =
          (m.values.set k.index v).length % u32Mod
        rw [List.length_set]
        exact hlen

theorem reachableSafe_inv {T : Type} {m : FastSlotMap T}
    (h : ReachableSafe m) : SafeInv m := by
  induction h with
  | base => exact safeInv_new
  | step hr hso happ ih => exact safeInv_apply ih hso happ

/-- Under equal vector lengths, `get` never panics. -/
theorem get_ne_none {T : Type} {m : FastSlotMap T} (k : Key)
    (h : m.generations.length = m.values.length) : m.get k ≠ none := by
  unfold FastSlotMap.get
  cases hvk : m.values[k.index]? with
  | none => simp
  | some w =>
    have hb : k.index < m.generations.length := by
      have := (List.getElem?_eq_some.mp hvk).1
      omega
    rw [getElemq_getD hb]
    simp

theorem insert_panic_links_pop {T : Type} (m : FastSlotMap T) (v : T)
    (h : m.free_head ≠ u32Max) (hn : m.next_free[m.free_head]? = none) :
    m.insert v = none := by
  unfold FastSlotMap.insert
  rw [if_neg h, hn]

theorem insert_panic_gen_pop {T : Type} (m : FastSlotMap T) (v : T)
    {nf0 : Nat} (h : m.free_head ≠ u32Max)
    (hn : m.next_free[m.free_head]? = some nf0)
    (hg : m.generations[m.free_head]? = none) : m.insert v = none := by
  unfold FastSlotMap.insert
  rw [if_neg h, hn, hg]

theorem insert_panic_values {T : Type} (m : FastSlotMap T) (v : T)
    (h : m.free_head ≠ u32Max) (hn : m.free_head < m.next_free.length)
    (hg : m.free_head < m.generations.length)
    (hv : ¬ m.free_head < m.values.length) : m.insert v = none := by
  unfold FastSlotMap.insert
  rw [if_neg h, getElemq_getD hn, getElemq_getD hg]
  simp [hv]

-- ### Concrete states used by witnesses and counterexamples

/-- The state after `insert(10)` on a fresh container. -/
def st1 : FastSlotMap Nat :=
  { values := [10], generations := [0], next_free := [u32Max],
    free_head := u32Max, len := 1 }

/-- The state after `insert(10); remove({0,0})`: slot 0 free, generation 1. -/
def st2 : FastSlotMap Nat :=
  { values := [10], generations := [1], next_free := [u32Max],
    free_head := 0, len := 0 }

/-- The state after `insert(10); remove({0,0}); remove({0,1})`: the second
remove presents a forged key matching the bumped generation of the freed slot,
so slot 0 is pushed onto the free list a second time (`next_free[0] = 0`,
a self-loop) and `len` wraps to `2^32 - 1`. -/
def st3 : FastSlotMap Nat :=
  { values := [10], generations := [2], next_free := [0],
    free_head := 0, len := 4294967295 }

def sD1 : FastSlotMap Nat :=
  { values := [1], generations := [0], next_free := [u32Max],
    free_head := u32Max, len := 1 }

def sD2 : FastSlotMap Nat :=
  { values := [1, 2], generations := [0, 0], next_free := [u32Max, u32Max],
    free_head := u32Max, len := 2 }

def sD3 : FastSlotMap Nat :=
  { values := [1, 2], generations := [1, 0], next_free := [u32Max, u32Max],
    free_head := 0, len := 1 }

def sD4 : FastSlotMap Nat :=
  { values := [3, 2], generations := [1, 0], next_free := [u32Max, u32Max],
    free_head := u32Max, len := 2 }

theorem reachable_st1 : Reachable st1 :=
  @Reachable.step Nat FastSlotMap.new st1 (Op.insert 10) Reachable.base
    (by decide)

theorem reachableSafe_st1 : ReachableSafe st1 :=
  @ReachableSafe.step Nat FastSlotMap.new st1 (Op.insert 10)
    ReachableSafe.base (by decide) (by decide)

theorem reachableSafe_st2 : ReachableSafe st2 :=
  @ReachableSafe.step Nat st1 st2 (Op.remove ⟨0, 0⟩)
    reachableSafe_st1 (by decide) (by decide)

-- ### Claim C1

/-- C1 (corrected): for a key whose index is in bounds but whose generation
mismatches, `remove` returns absence and leaves the container unchanged; for
a key whose index is out of range, however, `remove` panics (unchecked
`generations[key.index]`) instead of returning absence. -/
theorem C1_remove_invalid_corrected :
    (∀ (T : Type) (m : FastSlotMap T) (k : Key) (g : Nat),
        m.generations[k.index]? = some g → g ≠ k.generation →
        m.remove k = some (none, m)) ∧
    (∀ (T : Type) (m : FastSlotMap T) (k : Key),
        m.generations.length ≤ k.index → m.remove k = none) := by
  constructor
  · intro T m k g hg hne
    exact remove_miss m k g hg hne
  · intro T m k h
    exact remove_oob m k h

theorem C1_remove_invalid_corrected_witness :
    FastSlotMap.remove st2 ⟨0, 0⟩ = some (none, st2) ∧
      FastSlotMap.remove st1 ⟨5, 0⟩ = none :=
  ⟨C1_remove_invalid_corrected.1 Nat st2 ⟨0, 0⟩ 1 (by decide) (by decide),
   C1_remove_invalid_corrected.2 Nat st1 ⟨5, 0⟩ (by decide)⟩

/-- C1 counterexample: in the reachable state after `insert(10)`, removing
the out-of-range key `{1, 0}` panics (`none` in the embedding) rather than
returning absence with the container unchanged. -/
theorem C1_remove_oob_panics_counterexample :
    FastSlotMap.applyOps FastSlotMap.new [Op.insert 10] = some st1 ∧
      FastSlotMap.remove st1 ⟨1, 0⟩ = none ∧
      FastSlotMap.remove st1 ⟨1, 0⟩ ≠ some (none, st1) := by
  refine ⟨by decide, by decide, by decide⟩

-- ### Claim C2

/-- C2 (corrected): a key denotes a live value (`get` returns it, `contains`
is true) iff its index is in bounds and the stored generation equals the
key's generation; free-list membership of the index is not consulted. -/
theorem C2_validity_corrected :
    ∀ (T : Type) (m : FastSlotMap T) (k : Key),
      m.generations.length = m.values.length →
      ((∃ v, m.get k = some (some v)) ↔
        k.index < m.values.length ∧
        m.generations.getD k.index 0 = k.generation) ∧
      (m.contains k = some true ↔
        k.index < m.values.length ∧
        m.generations.getD k.index 0 = k.generation) := by
  intro T m k hlen
  have main : (∃ v, m.get k = some (some v)) ↔
      k.index < m.values.length ∧
      m.generations.getD k.index 0 = k.generation := by
    rcases Nat.lt_or_ge k.index m.values.length with hidx | hidx
    · have hg2 : k.index < m.generations.length := by omega
      cases hvk : m.values[k.index]? with
      | none => exact absurd (List.getElem?_eq_none_iff.mp hvk) (by omega)
      | some w =>
        cases hgk : m.generations[k.index]? with
        | none => exact absurd (List.getElem?_eq_none_iff.mp hgk) (by omega)
        | some g =>
          have hgD : m.generations.getD k.index 0 = g := by
            simp [List.getD_eq_getElem?_getD, hgk]
          by_cases hgen : g = k.generation
          · subst hgen
            rw [get_hit hvk hgk]
            simp [hidx, hgk]
          · rw [get_miss_gen hvk hgk hgen]
            simp [hidx, hgk, hgen]
    · rw [get_oob hidx]
      simp
      omega
  have hcont : m.contains k = some true ↔ ∃ v, m.get k = some (some v) := by
    rw [contains_eq]
    cases hq : m.get k with
    | none => exact absurd hq (get_ne_none k hlen)
    | some r =>
      cases r with
      | none => simp
      | some v => simp
  exact ⟨main, hcont.trans main⟩

theorem C2_validity_corrected_witness :
    FastSlotMap.contains st1 ⟨0, 0⟩ = some true :=
  (C2_validity_corrected Nat st1 ⟨0, 0⟩ rfl).2.mpr (by decide)

/-- C2 counterexample: in the reachable state after `insert(10);
remove({0,0})`, index 0 *is* on the free list, yet the forged key `{0, 1}`
(matching the bumped generation) is reported live by `get` and `contains`,
where the claim requires absence for every key whose index is free. -/
theorem C2_free_slot_forged_key_counterexample :
    FastSlotMap.applyOps FastSlotMap.new
        [Op.insert 10, Op.remove ⟨0, 0⟩] = some st2 ∧
      st2.freeList = [0] ∧
      FastSlotMap.get st2 ⟨0, 1⟩ = some (some 10) ∧
      FastSlotMap.contains st2 ⟨0, 1⟩ = some true := by
  refine ⟨by decide, by decide, by decide, by decide⟩

-- ### Claim C3

/-- C3 (corrected): along traces whose `remove` calls never present a key
matching the current generation of a slot already on the free list (and never
target slot index `u32::MAX`), the free list is a finite chain without
duplicates. -/
theorem C3_freelist_nodup_corrected :
    ∀ (T : Type) (m : FastSlotMap T), ReachableSafe m →
      ∃ fl, FreeChain m.next_free m.free_head fl ∧ fl.Nodup ∧
        m.freeList = fl := by
  intro T m h
  obtain ⟨⟨hg, hn, hh, hl⟩, fl, hc, hnd, hlen, hltM⟩ := reachableSafe_inv h
  refine ⟨fl, hc, hnd, ?_⟩
  unfold FastSlotMap.freeList
  exact freeListAux_eq_chain hc _ (nodup_length_le hnd hc.mem_lt)

theorem C3_freelist_nodup_corrected_witness :
    ∃ fl, FreeChain st2.next_free st2.free_head fl ∧ fl.Nodup ∧
      st2.freeList = fl :=
  C3_freelist_nodup_corrected Nat st2 reachableSafe_st2

/-- C3 counterexample: the reachable trace `insert(10); remove({0,0});
remove({0,1})` (the last call is a public `remove` with an arbitrary key)
produces a state whose free list links `free_head = 0, next_free[0] = 0`:
following the free list for two steps yields index 0 twice. -/
theorem C3_duplicate_free_entry_counterexample :
    FastSlotMap.applyOps FastSlotMap.new
        [Op.insert 10, Op.remove ⟨0, 0⟩, Op.remove ⟨0, 1⟩] = some st3 ∧
      freeListAux st3.next_free 2 st3.free_head = [0, 0] ∧
      ¬ (freeListAux st3.next_free 2 st3.free_head).Nodup := by
  refine ⟨by decide, by decide, by decide⟩

-- ### Claim C4

/-- C4 (confirmed): in every structurally well-formed state with fewer than
`2^32` slots, `insert(v)` succeeds and returns a key `k` with
`get(k) = Some(v)` and `contains(k) = true` immediately afterwards. -/
theorem C4_fresh_key_valid :
    ∀ (T : Type) (m : FastSlotMap T) (v : T), WF m →
      m.values.length < u32Mod →
      ∃ k mm, m.insert v = some (k, mm) ∧ mm.get k = some (some v) ∧
        mm.contains k = some true := by
  intro T m v hwf hL
  obtain ⟨hg, hn, hh, hl⟩ := hwf
  by_cases hfh : m.free_head = u32Max
  · have hLM : m.values.length % u32Mod = m.values.length := Nat.mod_eq_of_lt hL
    have h1 := insert_grow m v hfh
    rw [hLM] at h1
    refine ⟨⟨m.values.length, 0⟩, _, h1, ?_, ?_⟩
    · exact get_hit (List.getElem?_concat_length m.values v)
        (hg ▸ List.getElem?_concat_length m.generations 0)
    · rw [contains_eq, get_hit (List.getElem?_concat_length m.values v)
        (hg ▸ List.getElem?_concat_length m.generations 0)]
      rfl
  · have hfn : m.free_head < m.next_free.length := by
      rcases hh with hcc | hcc
      · exact absurd hcc hfh
      · exact hcc
    have hfg : m.free_head < m.generations.length := by omega
    have hfv : m.free_head < m.values.length := by omega
    have h1 := insert_pop m v hfh hfn hfg hfv
    have hvset : (m.values.set m.free_head v)[m.free_head]? = some v := by
      simp [List.getElem?_set_self, hfv]
    refine ⟨⟨m.free_head, m.generations.getD m.free_head 0⟩, _, h1, ?_, ?_⟩
    · exact get_hit hvset (getElemq_getD hfg)
    · rw [contains_eq, get_hit hvset (getElemq_getD hfg)]
      rfl

theorem C4_fresh_key_valid_witness :
    ∃ k mm, FastSlotMap.insert (FastSlotMap.new) (7 : Nat) = some (k, mm) ∧
      mm.get k = some (some 7) ∧ mm.contains k = some true :=
  C4_fresh_key_valid Nat FastSlotMap.new 7 (by decide) (by decide)

-- ### Claim C5

/-- C5 (confirmed): removing a live key succeeds and returns the stored
value; afterwards `get` reports absence, `contains` is false, and a second
`remove` of the same key returns absence leaving the state unchanged. -/
theorem C5_removal_invalidates :
    ∀ (T : Type) (m : FastSlotMap T) (k : Key) (v : T),
      m.generations[k.index]? = some k.generation →
      m.values[k.index]? = some v →
      k.index < m.next_free.length →
      ∃ mm, m.remove k = some (some v, mm) ∧ mm.get k = some none ∧
        mm.contains k = some false ∧ mm.remove k = some (none, mm) := by
  intro T m k v hg hv hn
  have h1 := remove_hit m k v hg hv hn
  have hgb : k.index < m.generations.length := (List.getElem?_eq_some.mp hg).1
  have hg2 : (m.generations.set k.index ((k.generation + 1) % u32Mod))[k.index]?
      = some ((k.generation + 1) % u32Mod) := by
    simp [List.getElem?_set_self, hgb]
  have hget : FastSlotMap.get
      { values := m.values,
        generations := m.generations.set k.index ((k.generation + 1) % u32Mod),
        next_free := m.next_free.set k.index m.free_head,
        free_head := k.index,
        len := (m.len + u32Mod - 1) % u32Mod } k = some none :=
    get_miss_gen hv hg2 (succ_mod_ne k.generation)
  have hrm : FastSlotMap.remove
      { values := m.values,
        generations := m.generations.set k.index ((k.generation + 1) % u32Mod),
        next_free := m.next_free.set k.index m.free_head,
        free_head := k.index,
        len := (m.len + u32Mod - 1) % u32Mod } k = some (none,
      { values := m.values,
        generations := m.generations.set k.index ((k.generation + 1) % u32Mod),
        next_free := m.next_free.set k.index m.free_head,
        free_head := k.index,
        len := (m.len + u32Mod - 1) % u32Mod }) :=
    remove_miss _ k ((k.generation + 1) % u32Mod) hg2 (succ_mod_ne k.generation)
  refine ⟨_, h1, hget, ?_, hrm⟩
  rw [contains_eq, hget]
  rfl

theorem C5_removal_invalidates_witness :
    ∃ mm, FastSlotMap.remove st1 ⟨0, 0⟩ = some (some 10, mm) ∧
      mm.get ⟨0, 0⟩ = some none ∧ mm.contains ⟨0, 0⟩ = some false ∧
      mm.remove ⟨0, 0⟩ = some (none, mm) :=
  C5_removal_invalidates Nat st1 ⟨0, 0⟩ 10 (by decide) (by decide) (by decide)

-- ### Claim C6

/-- Removing a live slot `i` (carrying generation `g`) and then inserting
again pops that same slot with the bumped generation. -/
theorem reuse_core {T : Type} (m1 : FastSlotMap T) (i g : Nat) (v1 v2 : T)
    (hgi : m1.generations[i]? = some g)
    (hvi : m1.values[i]? = some v1)
    (hni : i < m1.next_free.length)
    (himax : i ≠ u32Max) :
    ∃ m2 k2 m3,
      m1.remove ⟨i, g⟩ = some (some v1, m2) ∧
      m2.insert v2 = some (k2, m3) ∧
      (⟨i, g⟩ : Key) ≠ k2 ∧ k2.index = i ∧
      k2.generation = (g + 1) % u32Mod ∧
      m3.get ⟨i, g⟩ = some none ∧ m3.get k2 = some (some v2) := by
  have hgb : i < m1.generations.length := (List.getElem?_eq_some.mp hgi).1
  have hvb : i < m1.values.length := (List.getElem?_eq_some.mp hvi).1
  obtain ⟨m2, h2, hm2v, hm2g, hm2n, hm2f, hm2l⟩ :
      ∃ m2, m1.remove ⟨i, g⟩ = some (some v1, m2) ∧
        m2.values = m1.values ∧
        m2.generations = m1.generations.set i ((g + 1) % u32Mod) ∧
        m2.next_free = m1.next_free.set i m1.free_head ∧
        m2.free_head = i ∧
        m2.len = (m1.len + u32Mod - 1) % u32Mod :=
    ⟨_, remove_hit m1 ⟨i, g⟩ v1 hgi hvi hni, rfl, rfl, rfl, rfl, rfl⟩
  obtain ⟨k2, m3, h3, hk2, hm3v, hm3g⟩ :
      ∃ k2 m3, m2.insert v2 = some (k2, m3) ∧
        k2 = (⟨i, (g + 1) % u32Mod⟩ : Key) ∧
        m3.values = m2.values.set k2.index v2 ∧
        m3.generations = m2.generations := by
    refine ⟨_, _, insert_pop m2 v2 ?_ ?_ ?_ ?_, ?_, rfl, rfl⟩
    · rw [hm2f]; exact himax
    · rw [hm2f, hm2n]; simpa using hni
    · rw [hm2f, hm2g]; simpa using hgb
    · rw [hm2f, hm2v]; exact hvb
    · rw [hm2f, hm2g, getD_set_self hgb]
  subst hk2
  have hv3 : m3.values[i]? = some v2 := by
    rw [hm3v, hm2v]
    simp [List.getElem?_set_self, hvb]
  have hg3 : m3.generations[i]? = some ((g + 1) % u32Mod) := by
    rw [hm3g, hm2g]
    simp [List.getElem?_set_self, hgb]
  refine ⟨m2, _, m3, h2, h3, ?_, rfl, rfl, ?_, ?_⟩
  · intro hEq
    exact succ_mod_ne g (congrArg Key.generation hEq).symm
  · exact get_miss_gen hv3 hg3 (succ_mod_ne g)
  · exact get_hit hv3 hg3

/-- C6 (confirmed): from any well-formed state with fewer than `u32::MAX`
slots, `insert v1 → k1; remove k1; insert v2 → k2` reuses the freed slot with
a bumped generation: `k1 ≠ k2`, `k2.index = k1.index`,
`k2.generation = (k1.generation + 1) mod 2^32`, `get k1` is absent and
`get k2 = Some v2`; concretely Scenario D holds: `insert 1 → {0,0}`,
`insert 2 → {1,0}`, `remove {0,0}`, `insert 3 → {0,1}`, with `get {1,0}`
still `Some 2`. -/
theorem C6_generation_separates_reuse :
    (∀ (T : Type) (m : FastSlotMap T) (v1 v2 : T), WF m →
      m.values.length < u32Max →
      ∃ k1 m1 m2 k2 m3,
        m.insert v1 = some (k1, m1) ∧
        m1.remove k1 = some (some v1, m2) ∧
        m2.insert v2 = some (k2, m3) ∧
        k1 ≠ k2 ∧ k2.index = k1.index ∧
        k2.generation = (k1.generation + 1) % u32Mod ∧
        m3.get k1 = some none ∧ m3.get k2 = some (some v2)) ∧
    (FastSlotMap.insert (FastSlotMap.new) (1 : Nat) = some (⟨0, 0⟩, sD1) ∧
      sD1.insert 2 = some (⟨1, 0⟩, sD2) ∧
      sD2.remove ⟨0, 0⟩ = some (some 1, sD3) ∧
      sD3.insert 3 = some (⟨0, 1⟩, sD4) ∧
      (⟨0, 1⟩ : Key).index = (⟨0, 0⟩ : Key).index ∧
      (⟨0, 1⟩ : Key).generation = (⟨0, 0⟩ : Key).generation + 1 ∧
      sD4.get ⟨1, 0⟩ = some (some 2)) := by
  constructor
  · intro T m v1 v2 hwf hLmax
    obtain ⟨hg, hn, hh, hl⟩ := hwf
    have hMM : u32Max < u32Mod := by
      simp only [u32Max, u32Mod]
      omega
    by_cases hfh : m.free_head = u32Max
    · -- first insert grows a fresh slot
      have hLM : m.values.length % u32Mod = m.values.length :=
        Nat.mod_eq_of_lt (by omega)
      have h1 := insert_grow m v1 hfh
      rw [hLM] at h1
      have hg1 : (m.generations ++ [0])[m.values.length]? = some 0 := by
        rw [← hg]
        exact List.getElem?_concat_length m.generations 0
      have hv1 : (m.values ++ [v1])[m.values.length]? = some v1 :=
        List.getElem?_concat_length m.values v1
      have hn1 : m.values.length < (m.next_free ++ [u32Max]).length := by
        simp only [List.length_append, List.length_cons, List.length_nil]
        omega
      obtain ⟨m2, k2, m3, h2, h3, hne, hidx, hgen, hget1, hget2⟩ :=
        reuse_core
          { values := m.values ++ [v1], generations := m.generations ++ [0],
            next_free := m.next_free ++ [u32Max], free_head := m.free_head,
            len := (m.len + 1) % u32Mod }
          m.values.length 0 v1 v2 hg1 hv1 hn1 (by omega)
      exact ⟨⟨m.values.length, 0⟩, _, m2, k2, m3, h1, h2, h3, hne, hidx,
        hgen, hget1, hget2⟩
    · -- first insert pops the free-list head
      have hfn : m.free_head < m.next_free.length := by
        rcases hh with hcc | hcc
        · exact absurd hcc hfh
        · exact hcc
      have hfg : m.free_head < m.generations.length := by omega
      have hfv : m.free_head < m.values.length := by omega
      have h1 := insert_pop m v1 hfh hfn hfg hfv
      have hv1 : (m.values.set m.free_head v1)[m.free_head]? = some v1 := by
        simp [List.getElem?_set_self, hfv]
      have himax : m.free_head ≠ u32Max := by omega
      obtain ⟨m2, k2, m3, h2, h3, hne, hidx, hgen, hget1, hget2⟩ :=
        reuse_core
          { values := m.values.set m.free_head v1,
            generations := m.generations, next_free := m.next_free,
            free_head := m.next_free.getD m.free_head 0,
            len := (m.len + 1) % u32Mod }
          m.free_head (m.generations.getD m.free_head 0) v1 v2
          (getElemq_getD hfg) hv1 hfn himax
      exact ⟨⟨m.free_head, m.generations.getD m.free_head 0⟩, _, m2, k2, m3,
        h1, h2, h3, hne, hidx, hgen, hget1, hget2⟩
  · refine ⟨by decide, by decide, by decide, by decide, by decide, by decide,
      by decide⟩

theorem C6_generation_separates_reuse_witness :
    ∃ k1 m1 m2 k2 m3,
      FastSlotMap.insert (FastSlotMap.new) (5 : Nat) = some (k1, m1) ∧
      m1.remove k1 = some (some 5, m2) ∧
      m2.insert 6 = some (k2, m3) ∧
      k1 ≠ k2 ∧ k2.index = k1.index ∧
      k2.generation = (k1.generation + 1) % u32Mod ∧
      m3.get k1 = some none ∧ m3.get k2 = some (some 6) :=
  C6_generation_separates_reuse.1 Nat FastSlotMap.new 5 6 (by decide)
    (by decide)

-- ### Claim C7

/-- C7 (corrected): along traces whose `remove` calls never present a key
matching the current generation of a slot already on the free list (and never
target slot index `u32::MAX`), the wrapping `len` counter equals the number
of slots not on the free list, reduced modulo `2^32`, and `is_empty` holds
iff that reduced count is zero. -/
theorem C7_len_counts_live_corrected :
    ∀ (T : Type) (m : FastSlotMap T), ReachableSafe m →
      m.len = m.liveCount % u32Mod ∧
      (m.is_empty = true ↔ m.liveCount % u32Mod = 0) := by
  intro T m h
  obtain ⟨⟨hg, hn, hh, hl⟩, fl, hc, hnd, hlen, hltM⟩ := reachableSafe_inv h
  have hflen : fl.length ≤ m.next_free.length := nodup_length_le hnd hc.mem_lt
  have hfleq : m.freeList = fl := by
    unfold FastSlotMap.freeList
    exact freeListAux_eq_chain hc _ hflen
  have hlive : m.liveCount = m.values.length - fl.length := by
    unfold FastSlotMap.liveCount
    rw [hfleq]
  have hfle2 : fl.length ≤ m.values.length := by omega
  have hmain : m.len = (m.values.length - fl.length) % u32Mod := by
    obtain ⟨d, hd⟩ : ∃ d, m.values.length = d + fl.length :=
      ⟨m.values.length - fl.length, by omega⟩
    rw [hd] at hlen ⊢
    have hdd : d + fl.length - fl.length = d := by omega
    rw [hdd]
    simp only [u32Mod] at *
    omega
  refine ⟨by rw [hlive]; exact hmain, ?_⟩
  unfold FastSlotMap.is_empty
  rw [hlive, ← hmain]
  simp

theorem C7_len_counts_live_corrected_witness :
    st2.len = st2.liveCount % u32Mod ∧
      (st2.is_empty = true ↔ st2.liveCount % u32Mod = 0) :=
  C7_len_counts_live_corrected Nat st2 reachableSafe_st2

/-- C7 counterexample: after the reachable trace `insert(10); remove({0,0});
remove({0,1})` (the last call removes a forged key matching a freed slot's
generation) the live-slot count is 0 and the container holds one slot, yet
`len()` reads `2^32 - 1` and `is_empty()` is false — `len` does not equal
the number of valid keys / slots off the free list. -/
theorem C7_len_mismatch_counterexample :
    FastSlotMap.applyOps FastSlotMap.new
        [Op.insert 10, Op.remove ⟨0, 0⟩, Op.remove ⟨0, 1⟩] = some st3 ∧
      st3.len = 4294967295 ∧ st3.liveCount = 0 ∧
      st3.len ≠ st3.liveCount ∧ st3.is_empty = false := by
  refine ⟨by decide, by decide, by decide, by decide, by decide⟩

-- ### Claim C8

/-- C8 (confirmed): `get` (and `get_mut`, which performs the identical
lookup) returns the stored value iff the key's index is in bounds and the
stored generation equals the key's generation; otherwise it returns absence;
it never panics when the vectors have equal length, and as a `&self` method
it leaves the state unchanged. -/
theorem C8_get_characterization :
    ∀ (T : Type) (m : FastSlotMap T) (k : Key),
      m.generations.length = m.values.length →
      m.get_mut k = m.get k ∧
      (∀ v : T, m.get k = some (some v) ↔
        m.values[k.index]? = some v ∧
        m.generations[k.index]? = some k.generation) ∧
      (m.get k = some none ↔
        m.values.length ≤ k.index ∨
        m.generations.getD k.index 0 ≠ k.generation) ∧
      m.get k ≠ none ∧
      m.apply (Op.readKey k) = some m := by
  intro T m k hlen
  refine ⟨get_mut_eq_get m k, ?_, ?_, get_ne_none k hlen, ?_⟩
  · intro v
    constructor
    · intro hv
      cases hvk : m.values[k.index]? with
      | none =>
        rw [get_oob (List.getElem?_eq_none_iff.mp hvk)] at hv
        simp at hv
      | some w =>
        have hgb : k.index < m.generations.length := by
          have := (List.getElem?_eq_some.mp hvk).1
          omega
        cases hgk : m.generations[k.index]? with
        | none => exact absurd (List.getElem?_eq_none_iff.mp hgk) (by omega)
        | some g =>
          by_cases hgen : g = k.generation
          · subst hgen
            rw [get_hit hvk hgk] at hv
            have hwv : w = v := by simpa using hv
            subst hwv
            exact ⟨rfl, rfl⟩
          · rw [get_miss_gen hvk hgk hgen] at hv
            simp at hv
    · rintro ⟨hvk, hgk⟩
      exact get_hit hvk hgk
  · constructor
    · intro hv
      rcases Nat.lt_or_ge k.index m.values.length with hidx | hidx
      · right
        cases hvk : m.values[k.index]? with
        | none => exact absurd (List.getElem?_eq_none_iff.mp hvk) (by omega)
        | some w =>
          have hgb : k.index < m.generations.length := by omega
          cases hgk : m.generations[k.index]? with
          | none => exact absurd (List.getElem?_eq_none_iff.mp hgk) (by omega)
          | some g =>
            have hgD : m.generations.getD k.index 0 = g := by
              simp [List.getD_eq_getElem?_getD, hgk]
            rw [hgD]
            intro hgen
            subst hgen
            rw [get_hit hvk hgk] at hv
            simp at hv
      · exact Or.inl hidx
    · intro hor
      rcases hor with hidx | hgen
      · exact get_oob hidx
      · cases hvk : m.values[k.index]? with
        | none => exact get_oob (List.getElem?_eq_none_iff.mp hvk)
        | some w =>
          have hgb : k.index < m.generations.length := by
            have := (List.getElem?_eq_some.mp hvk).1
            omega
          exact get_miss_gen hvk (getElemq_getD hgb) hgen
  · simp only [FastSlotMap.apply]
    cases hq : m.get k with
    | none => exact absurd hq (get_ne_none k hlen)
    | some r => rfl

theorem C8_get_characterization_witness :
    FastSlotMap.get st1 ⟨0, 0⟩ = some (some 10) :=
  ((C8_get_characterization Nat st1 ⟨0, 0⟩ rfl).2.1 10).mpr
    ⟨by decide, by decide⟩

-- ### Claim C9

/-- C9 (confirmed): a successful removal bumps the slot's generation by
exactly one modulo `2^32`, leaves all other generations unchanged, returns
the stored value, and decrements `len` (when the counter is in range);
`insert` never modifies an existing generation entry and returns a key whose
generation equals the slot's current (already-bumped) generation. -/
theorem C9_generation_increment :
    (∀ (T : Type) (m : FastSlotMap T) (k : Key) (v : T),
      m.generations[k.index]? = some k.generation →
      m.values[k.index]? = some v →
      k.index < m.next_free.length →
      ∃ mm, m.remove k = some (some v, mm) ∧
        mm.generations[k.index]? = some ((k.generation + 1) % u32Mod) ∧
        (∀ j, j ≠ k.index → mm.generations[j]? = m.generations[j]?) ∧
        (0 < m.len → m.len < u32Mod → mm.len = m.len - 1)) ∧
    (∀ (T : Type) (m : FastSlotMap T) (v : T) (k : Key)
        (mm : FastSlotMap T),
      m.generations.length = m.values.length →
      m.values.length < u32Mod →
      m.insert v = some (k, mm) →
      (∀ j, j < m.generations.length → mm.generations[j]? =
        m.generations[j]?) ∧
      mm.generations[k.index]? = some k.generation) := by
  constructor
  · intro T m k v hg hv hn
    have hgb : k.index < m.generations.length := (List.getElem?_eq_some.mp hg).1
    refine ⟨_, remove_hit m k v hg hv hn, ?_, ?_, ?_⟩
    · show (m.generations.set k.index ((k.generation + 1) % u32Mod))[k.index]?
        = some ((k.generation + 1) % u32Mod)
      simp [List.getElem?_set_self, hgb]
    · intro j hj
      show (m.generations.set k.index ((k.generation + 1) % u32Mod))[j]?
        = m.generations[j]?
      rw [List.getElem?_set_ne (Ne.symm hj)]
    · intro h1 h2
      show (m.len + u32Mod - 1) % u32Mod = m.len - 1
      exact sub_one_mod m.len h1 h2
  · intro T m v k mm hlen hL hins
    by_cases hfh : m.free_head = u32Max
    · rw [insert_grow m v hfh] at hins
      have hLM : m.values.length % u32Mod = m.values.length :=
        Nat.mod_eq_of_lt hL
      rw [hLM] at hins
      simp at hins
      obtain ⟨hk, hm⟩ := hins
      subst hk
      subst hm
      constructor
      · intro j hj
        exact List.getElem?_append_left hj
      · show (m.generations ++ [0])[m.values.length]? = some 0
        rw [← hlen]
        exact List.getElem?_concat_length m.generations 0
    · cases hnf : m.next_free[m.free_head]? with
      | none =>
        rw [insert_panic_links_pop m v hfh hnf] at hins
        simp at hins
      | some nf0 =>
        have hfn : m.free_head < m.next_free.length :=
          (List.getElem?_eq_some.mp hnf).1
        cases hgf : m.generations[m.free_head]? with
        | none =>
          rw [insert_panic_gen_pop m v hfh hnf hgf] at hins
          simp at hins
        | some g0 =>
          have hfg : m.free_head < m.generations.length :=
            (List.getElem?_eq_some.mp hgf).1
          by_cases hfv : m.free_head < m.values.length
          · rw [insert_pop m v hfh hfn hfg hfv] at hins
            simp at hins
            obtain ⟨hk, hm⟩ := hins
            subst hk
            subst hm
            constructor
            · intro j hj
              rfl
            · show m.generations[m.free_head]? =
                some (m.generations[m.free_head]?.getD 0)
              rw [hgf]
              rfl
          · rw [insert_panic_values m v hfh hfn hfg hfv] at hins
            simp at hins

theorem C9_generation_increment_witness :
    ∃ mm, FastSlotMap.remove st1 ⟨0, 0⟩ = some (some 10, mm) ∧
      mm.generations[0]? = some ((0 + 1) % u32Mod) ∧
      (∀ j, j ≠ 0 → mm.generations[j]? = st1.generations[j]?) ∧
      (0 < st1.len → st1.len < u32Mod → mm.len = st1.len - 1) :=
  C9_generation_increment.1 Nat st1 ⟨0, 0⟩ 10 (by decide) (by decide)
    (by decide)

-- ### Claim C10

/-- C10 (confirmed): every state reachable by non-panicking public
operations is structurally well-formed — the three parallel vectors have
equal length, and the free-list head and every stored link are either the
`u32::MAX` sentinel or in bounds — and consequently every index reached by
following the free list is below `values.len()`. -/
theorem C10_structural_wf :
    ∀ (T : Type) (m : FastSlotMap T), Reachable m →
      WF m ∧ ∀ j ∈ m.freeList, j < m.values.length := by
  intro T m h
  have hwf := reachable_wf h
  refine ⟨hwf, ?_⟩
  obtain ⟨hg, hn, hh, hl⟩ := hwf
  intro j hj
  unfold FastSlotMap.freeList at hj
  have := freeListAux_mem_lt hl m.next_free.length m.free_head hh j hj
  omega

theorem C10_structural_wf_witness :
    WF st1 ∧ ∀ j ∈ st1.freeList, j < st1.values.length :=
  C10_structural_wf Nat st1 reachable_st1

-- Sanity checks of the embedding on the spec's Scenarios A and B.
example :
    FastSlotMap.insert (FastSlotMap.new) (10 : Nat) =
      some (⟨0, 0⟩,
        { values := [10], generations := [0], next_free := [u32Max],
          free_head := u32Max, len := 1 }) := by decide

example :
    FastSlotMap.remove
      ({ values := [10], generations := [0], next_free := [u32Max],
         free_head := u32Max, len := 1 } : FastSlotMap Nat) ⟨0, 0⟩ =
      some (some 10,
        { values := [10], generations := [1], next_free := [u32Max],
          free_head := 0, len := 0 }) := by decide
